import Mathlib

/-
Verification of the filtering / deduplication / classification / rendering
logic of `orcid_to_drupal_snippet.py`.

Modelling conventions (shallow embedding):
- Python strings are modelled as `List Char` (sequences of Unicode code
  points), abbreviated `Str`.
- The Unicode-dependent primitives of the Python standard library
  (`unicodedata.normalize("NFKC", ·)`, `str.lower`, `str.isalnum`,
  whitespace classes of `str.strip` and the regex `\s`, `\d`) are modelled
  on the character fragment the script's branches actually distinguish:
  the ASCII range plus the explicit dash code points listed in `DASHES`.
  Outside that fragment they act as the identity / return false.
- JSON floats (concept scores, `min_concept_score`) are modelled as
  rationals; the script only compares them with `>=`.
- Dictionaries fetched from JSON are modelled as structures whose fields
  are `Option`s where the script guards against missing keys.
-/

namespace Snippet

/-- Python strings as lists of Unicode code points. -/
abbrev Str : Type := List Char

/-- Convenience conversion from Lean string literals. -/
def strL (s : String) : Str := s.toList

/-- The definition `str.lower`, modelled on the ASCII fragment: maps `A`-`Z` (code points
65-90) to `a`-`z`, identity elsewhere. -/
def pyLower (c : Char) : Char :=
  if 65 ≤ c.toNat ∧ c.toNat ≤ 90 then Char.ofNat (c.toNat + 32) else c

/-- The definition `str.isalnum`, modelled on the ASCII fragment: digits and latin
letters. -/
def pyIsAlnum (c : Char) : Bool :=
  (48 ≤ c.toNat && c.toNat ≤ 57) || (65 ≤ c.toNat && c.toNat ≤ 90) ||
    (97 ≤ c.toNat && c.toNat ≤ 122)

/-- Whitespace as matched by the regex `\s` and by `str.strip`, modelled on
the ASCII fragment. -/
def pyWS (c : Char) : Bool :=
  c = ' ' || c = '\t' || c = '\n' || c = '\r' || c = '\u000B' || c = '\u000C'

/-- The `DASHES` constant of the script: dash-like code points that the
normalizer maps to an ASCII hyphen. -/
def DASHES : Str :=
  ['‐', '‑', '‒', '–', '—', '−', '⁃',
   '﹘', '﹣', '－']

/-- The definition `unicodedata.normalize("NFKC", ·)`, modelled per character on the
fragment the script distinguishes: the three dash code points with
compatibility decompositions (`U+FE58`, `U+FE63`, `U+FF0D`) map to their
NFKC forms; every other modelled character is NFKC-stable. -/
def nfkcChar (c : Char) : Char :=
  if c = '﹘' then '—'
  else if c = '﹣' then '-'
  else if c = '－' then '-'
  else c

/-- Replaces every maximal run of characters satisfying `p` by the single
character `r`; the flag records whether we are inside such a run. Used to
model the substitutions `re.sub(r"\s+", " ", s)` and
`re.sub(r"-\x7b2,\x7d", "-", s)` (a run of length one is replaced by itself
there, so the results agree). -/
def collapseRunsAux (p : Char → Bool) (r : Char) : Bool → Str → Str
  | _, [] => []
  | true, c :: cs =>
    if p c then collapseRunsAux p r true cs
    else c :: collapseRunsAux p r false cs
  | false, c :: cs =>
    if p c then r :: collapseRunsAux p r true cs
    else c :: collapseRunsAux p r false cs

/-- See `collapseRunsAux`. -/
def collapseRuns (p : Char → Bool) (r : Char) (l : Str) : Str :=
  collapseRunsAux p r false l

/-- The definition `str.strip()`: removes leading and trailing whitespace. -/
def stripWS (l : Str) : Str :=
  ((l.dropWhile pyWS).reverse.dropWhile pyWS).reverse

/-- The definition `str.lower()` on a whole string. -/
def lowerStr (s : Str) : Str := s.map pyLower

/-- The character class kept by the normalizer's filtering loop:
`ch.isalnum() or ch in (" ", "-")`. -/
def keepChar (c : Char) : Bool := pyIsAlnum c || c = ' ' || c = '-'

/-- The definition `norm_text` (script lines 156-177): NFKC-normalize, lowercase, map
dash-like code points to `-`, map `_` and `/` to space, replace every
character that is not alphanumeric, space or hyphen by a space, collapse
whitespace runs to one space and strip, collapse runs of 2+ hyphens. -/
def norm_text (s : Str) : Str :=
  let s1 := s.map nfkcChar
  let s2 := s1.map pyLower
  let s3 := s2.map (fun c => if c ∈ DASHES then '-' else c)
  let s4 := s3.map (fun c => if c = '_' || c = '/' then ' ' else c)
  let s5 := s4.map (fun c => if keepChar c then c else ' ')
  let s6 := stripWS (collapseRuns pyWS ' ' s5)
  collapseRuns (fun c => c = '-') '-' s6

/-- The definition `pat.isPrefixOf txt` for lists of characters (Python slicing check). -/
def listStartsWith : Str → Str → Bool
  | [], _ => true
  | _ :: _, [] => false
  | p :: ps, c :: cs => p = c && listStartsWith ps cs

/-- Python substring containment `pat in txt`. -/
def containsSub (pat : Str) : Str → Bool
  | [] => pat.isEmpty
  | c :: cs => listStartsWith pat (c :: cs) || containsSub pat cs

/-- Auxiliary for `replaceAll`, structurally recursive on a fuel counter so
that it evaluates inside the kernel. Each step consumes at least one
character of the text and one unit of fuel, so with `fuel ≥` the text's
length the zero-fuel branch is never reached. After a match the remaining
text is `(c :: cs).drop pat.length = cs.drop (pat.length - 1)` (the match
requires `pat ≠ []`). -/
def replaceAllAux (pat rep : Str) : Nat → Str → Str
  | _, [] => []
  | 0, l => l
  | fuel + 1, c :: cs =>
    if pat ≠ [] ∧ listStartsWith pat (c :: cs) = true then
      rep ++ replaceAllAux pat rep fuel (cs.drop (pat.length - 1))
    else
      c :: replaceAllAux pat rep fuel cs

/-- Python `txt.replace(pat, rep)`: left-to-right replacement of
non-overlapping occurrences. (The script only calls it with non-empty
`pat`; for `pat = []` this model returns the string unchanged.) -/
def replaceAll (pat rep : Str) (l : Str) : Str :=
  replaceAllAux pat rep l.length l

/-- The definition `doi_norm` (script lines 191-194): strip, lowercase, remove the
`doi.org` URL prefixes. -/
def doi_norm (doi : Str) : Str :=
  let d := lowerStr (stripWS doi)
  let d := replaceAll (strL "https://doi.org/") [] d
  replaceAll (strL "http://doi.org/") [] d

/-- The definition `title_matches` (script lines 180-188): a keyword matches when it is
non-empty, its normalization is non-empty, and that normalization occurs in
the normalized title. -/
def title_matches (title : Str) (keywords : List Str) : Bool :=
  let t := norm_text title
  keywords.any fun k =>
    if k.isEmpty then false
    else
      let kk := norm_text k
      !kk.isEmpty && containsSub kk t

/-- One `(concept-identifier, relevance-score)` entry of a work's concept
list; both keys may be missing in the JSON. -/
structure Concept where
  id : Option Str
  score : Option Rat
deriving DecidableEq

/-- The `primary_location.source` sub-record of a work. -/
structure Source where
  display_name : Option Str
  type : Option Str
deriving DecidableEq

/-- The `primary_location` sub-record of a work. -/
structure PrimaryLocation where
  source : Option Source
deriving DecidableEq

/-- A publication record, restricted to the fields the verified functions
read (`authorships` is only used by the citation formatter, which is not
subject to any claim). -/
structure Work where
  title : Option Str
  doi : Option Str
  publication_year : Option Int
  type : Option Str
  primary_location : Option PrimaryLocation
  concepts : List Concept
deriving DecidableEq

/-- A filter profile as loaded from `filters/<name>.json`; fields that the
script reads with a non-trivial default (`mode`, `min_concept_score`) are
`Option`s, list fields default to `[]` which coincides with the script's
`flt.get(key, [])`. -/
structure FilterProfile where
  mode : Option Str
  exclude_dois : List Str
  exclude_title_keywords : List Str
  include_title_keywords : List Str
  min_concept_score : Option Rat
deriving DecidableEq

/-- The definition `work_passes_filters` (script lines 197-226). The float default `0.35`
is modelled as the rational `35/100`. -/
def work_passes_filters (work : Work) (flt : FilterProfile)
    (include_concept_ids : List Str) : Bool :=
  let mode := flt.mode.getD (strL "include_if_any")
  if mode = strL "none" then true
  else
    let title := work.title.getD []
    let doi := doi_norm (work.doi.getD [])
    let exclude_dois := flt.exclude_dois.map lowerStr
    if doi ≠ [] ∧ doi ∈ exclude_dois then false
    else if title_matches title flt.exclude_title_keywords then false
    else if title_matches title flt.include_title_keywords then true
    else
      let min_score := flt.min_concept_score.getD ((35 : Rat) / 100)
      work.concepts.any fun c =>
        (match c.id with
         | some i => decide (i ∈ include_concept_ids)
         | none => false)
        && decide (min_score ≤ c.score.getD 0)

/-- The definition `get_venue_info` (script lines 233-243): venue display name and source
type, empty text when missing. -/
def get_venue_info (w : Work) : Str × Str :=
  let src := (w.primary_location.getD ⟨none⟩).source.getD ⟨none, none⟩
  (src.display_name.getD [], src.type.getD [])

/-- The definition `is_conference` (script lines 246-260). -/
def is_conference (w : Work) : Bool :=
  let wtype := lowerStr (w.type.getD [])
  let vi := get_venue_info w
  let src_type := lowerStr vi.2
  if containsSub (strL "proceedings") wtype || containsSub (strL "conference") wtype then
    true
  else if src_type = strL "conference" then true
  else
    let v := lowerStr vi.1
    containsSub (strL "conference") v || containsSub (strL "proceedings") v

/-- The definition `is_egu` (script lines 263-266). -/
def is_egu (w : Work) : Bool :=
  let v := lowerStr (get_venue_info w).1
  containsSub (strL "egu") v ||
    containsSub (strL "european geosciences union") v ||
    containsSub (strL "general assembly") v

/-- The definition `is_book_or_chapter` (script lines 269-292). -/
def is_book_or_chapter (w : Work) : Bool :=
  let wtype := lowerStr (w.type.getD [])
  if wtype = strL "book" ∨ wtype = strL "book-chapter" ∨ wtype = strL "edited-book" then
    true
  else
    let vi := get_venue_info w
    let st := lowerStr vi.2
    if containsSub (strL "book") st then true
    else
      let v := lowerStr vi.1
      containsSub (strL "book") v && !containsSub (strL "journal") v

/-- The classification loop of `main` (script lines 507-513): returns the
`(journals, conferences, books)` buckets, preserving input order. -/
def split_buckets : List Work → List Work × List Work × List Work
  | [] => ([], [], [])
  | w :: ws =>
    let rest := split_buckets ws
    if is_book_or_chapter w then (rest.1, rest.2.1, w :: rest.2.2)
    else if is_conference w || is_egu w then (rest.1, w :: rest.2.1, rest.2.2)
    else (w :: rest.1, rest.2.1, rest.2.2)

/-- The definition `str(w.get("publication_year") or "")`: `None` and the (falsy) year `0`
render as empty text, any other integer as its decimal representation. -/
def yearText (y : Option Int) : Str :=
  match y with
  | some i => if i = 0 then [] else strL (toString i)
  | none => []

/-- The identity key computed inside `dedup_works` (script lines 373-378):
`none` when the stripped title is empty (such works are dropped), otherwise
the normalized DOI if non-empty, else `lowercased-title ++ "|" ++ year`. -/
def dedup_key (w : Work) : Option Str :=
  let title := stripWS (w.title.getD [])
  if title = [] then none
  else
    let d := doi_norm (w.doi.getD [])
    let year := stripWS (yearText w.publication_year)
    some (if d ≠ [] then d else lowerStr title ++ '|' :: year)

/-- The loop of `dedup_works` with its `seen` set made explicit. -/
def dedup_go (seen : List Str) : List Work → List Work
  | [] => []
  | w :: ws =>
    match dedup_key w with
    | none => dedup_go seen ws
    | some k => if k ∈ seen then dedup_go seen ws else w :: dedup_go (k :: seen) ws

/-- The definition `dedup_works` (script lines 369-383). -/
def dedup_works (works : List Work) : List Work := dedup_go [] works

/-- Python `<=` on strings: lexicographic comparison by code point. -/
def pyStrLe : Str → Str → Bool
  | [], _ => true
  | _ :: _, [] => false
  | a :: s, b :: t => if a = b then pyStrLe s t else decide (a.toNat < b.toNat)

/-- The year component of the sort key: `y if isinstance(y, int) else -1`. -/
def yearRank (w : Work) : Int := w.publication_year.getD (-1)

/-- The comparison realised by `sort_key` (script lines 387-391): ascending
lexicographic order on the pair `(-year, lowercased title)`. -/
def work_leB (w1 w2 : Work) : Bool :=
  if -(yearRank w1) < -(yearRank w2) then true
  else if -(yearRank w1) = -(yearRank w2) then
    pyStrLe (lowerStr (w1.title.getD [])) (lowerStr (w2.title.getD []))
  else false

/-- The definition `work_leB` as a relation, for the sorting lemmas. -/
def workLe (w1 w2 : Work) : Prop := work_leB w1 w2 = true

instance : DecidableRel workLe := fun a b => by unfold workLe; infer_instance

/-- The definition `sort_works` (script lines 386-394): Python's `list.sort` is a stable
sort by the key above; it is modelled by the stable `insertionSort` with
the corresponding total preorder. -/
def sort_works (works : List Work) : List Work := List.insertionSort workLe works

/-- The item-numbering loop of `build_list_html` (script lines 427-438):
`num = start_num - i` for the `i`-th emitted work. -/
def numberItems (n : Nat) : Nat → List Work → List (Nat × Work)
  | _, [] => []
  | i, w :: ws => (n - i, w) :: numberItems n (i + 1) ws

/-- The definition `build_list_html` (script lines 397-440) restricted to its item
sequence: dedup, sort, truncate to `max_items`, then number the items
counting down from the list length. The surrounding CSS / HTML text does
not alter the sequence and is not modelled. -/
def build_list_items (works : List Work) (max_items : Nat) : List (Nat × Work) :=
  let works1 := dedup_works works
  let works2 := sort_works works1
  let works3 := works2.take max_items
  numberItems works3.length 0 works3

/-- One row of `orcid_members.csv` as seen through `csv.DictReader`:
missing columns read as `None`. -/
structure CsvRow where
  orcid : Option Str
  name : Option Str
  filter_profile : Option Str
  apply_filter : Option Str
deriving DecidableEq

/-- A validated member record. -/
structure Member where
  orcid : Str
  name : Str
  profile : Str
deriving DecidableEq

/-- The definition `\d` of the regex, modelled on the ASCII fragment. -/
def isDigitCh (c : Char) : Bool := 48 ≤ c.toNat && c.toNat ≤ 57

/-- The definition `ORCID_RE` (script line 40): `^\d\x7b4\x7d-\d\x7b4\x7d-\d\x7b4\x7d-\d\x7b3\x7d[\dX]$`. -/
def orcid_re_match (s : Str) : Bool :=
  match s with
  | [a1, a2, a3, a4, d1, b1, b2, b3, b4, d2, c1, c2, c3, c4, d3, e1, e2, e3, e4] =>
    isDigitCh a1 && isDigitCh a2 && isDigitCh a3 && isDigitCh a4 && d1 = '-' &&
    isDigitCh b1 && isDigitCh b2 && isDigitCh b3 && isDigitCh b4 && d2 = '-' &&
    isDigitCh c1 && isDigitCh c2 && isDigitCh c3 && isDigitCh c4 && d3 = '-' &&
    isDigitCh e1 && isDigitCh e2 && isDigitCh e3 && (isDigitCh e4 || e4 = 'X')
  | _ => false

/-- The identifier pattern as the spec words it: 4 hyphen-separated groups
of 4 alphanumeric characters (the last character may be the check digit
`X`, which is itself alphanumeric). Stated from the spec for comparison
with `orcid_re_match`. -/
def specOrcidPattern (s : Str) : Bool :=
  match s with
  | [a1, a2, a3, a4, d1, b1, b2, b3, b4, d2, c1, c2, c3, c4, d3, e1, e2, e3, e4] =>
    pyIsAlnum a1 && pyIsAlnum a2 && pyIsAlnum a3 && pyIsAlnum a4 && d1 = '-' &&
    pyIsAlnum b1 && pyIsAlnum b2 && pyIsAlnum b3 && pyIsAlnum b4 && d2 = '-' &&
    pyIsAlnum c1 && pyIsAlnum c2 && pyIsAlnum c3 && pyIsAlnum c4 && d3 = '-' &&
    pyIsAlnum e1 && pyIsAlnum e2 && pyIsAlnum e3 && pyIsAlnum e4
  | _ => false

/-- Python `a or b` where `a` is an optional string and `None` and `""` are
falsy. -/
def pyOrStr (a : Option Str) (dflt : Str) : Str :=
  match a with
  | some s => if s = [] then dflt else s
  | none => dflt

/-- The body of the row loop of `read_members_csv` (script lines 96-106):
strip the identifier, default the display name to the identifier, resolve
the profile from either column name with default `"none"`, and abort
(`raise SystemExit`) on an identifier that fails `ORCID_RE`. -/
def memberOfRow (row : CsvRow) : Except Str Member :=
  let orcid := stripWS (row.orcid.getD [])
  let name0 := stripWS (row.name.getD [])
  let name := if name0 = [] then orcid else name0
  let profile0 := stripWS (pyOrStr row.filter_profile
    (pyOrStr row.apply_filter (strL "none")))
  let profile := if profile0 = [] then strL "none" else profile0
  if orcid_re_match orcid then Except.ok ⟨orcid, name, profile⟩
  else Except.error (strL "ORCID non valido: " ++ orcid ++ strL " (name=" ++ name ++ strL ")")

/-- The row loop of `read_members_csv`: members are accumulated in order
and the first invalid identifier aborts the whole run. -/
def membersOfRows : List CsvRow → Except Str (List Member)
  | [] => Except.ok []
  | r :: rs =>
    match memberOfRow r with
    | Except.error e => Except.error e
    | Except.ok m =>
      match membersOfRows rs with
      | Except.error e => Except.error e
      | Except.ok ms => Except.ok (m :: ms)

/-- The definition `read_members_csv` (script lines 84-111): processes the rows in order,
aborting at the first invalid identifier, and aborts when no member was
found. -/
def read_members_csv (rows : List CsvRow) : Except Str (List Member) :=
  match membersOfRows rows with
  | Except.error e => Except.error e
  | Except.ok members =>
    if members = [] then
      Except.error (strL "Nessun membro trovato in orcid_members.csv")
    else Except.ok members

example : norm_text (strL "Hello,  WORLD--x") = strL "hello world-x" := by decide
example : norm_text (strL "  A_b/c!! ") = strL "a b c" := by decide
example : norm_text (strL "a–b") = strL "a-b" := by decide
example : doi_norm (strL " https://doi.org/10.1/ABC ") = strL "10.1/abc" := by decide
example : doi_norm (strL "10.1/ABC/") = strL "10.1/abc/" := by decide
example : title_matches (strL "Deep learning") [strL "LEARN"] = true := by decide
example : title_matches (strL "Deep learning") [strL "!"] = false := by decide
example : containsSub (strL "") (strL "ab") = true := by decide
example : containsSub (strL "") (strL "") = true := by decide
example : replaceAll (strL "ab") [] (strL "xabyab") = strL "xy" := by decide

/-! Helper lemmas. -/

/-- A keyword whose text or normalization is empty contributes `false` to
the `any`-fold inside `title_matches`. -/
lemma title_matches_insert_trivial (k : Str) (hk : k = [] ∨ norm_text k = [])
    (t : Str) (xs ys : List Str) :
    title_matches t (xs ++ k :: ys) = title_matches t (xs ++ ys) := by
  have hfk : ∀ t' : Str,
      (if k.isEmpty then false
       else !(norm_text k).isEmpty && containsSub (norm_text k) t') = false := by
    intro t'
    rcases hk with hk | hk
    · subst hk; rfl
    · rw [hk]
      by_cases hke : k.isEmpty <;> simp [hke]
  simp only [title_matches, List.any_append, List.any_cons]
  rw [hfk (norm_text t)]
  simp

/-- A keyword with a non-empty normalization occurring in the normalized
title makes `title_matches` true. -/
lemma title_matches_of_mem (t k : Str) (kws : List Str) (hmem : k ∈ kws)
    (hne : norm_text k ≠ []) (hsub : containsSub (norm_text k) (norm_text t) = true) :
    title_matches t kws = true := by
  have hk : k ≠ [] := by
    intro h; subst h; exact hne rfl
  simp only [title_matches, List.any_eq_true]
  refine ⟨k, hmem, ?_⟩
  have hke : k.isEmpty = false := by simpa using hk
  have hnne : (norm_text k).isEmpty = false := by simpa using hne
  simp [hke, hnne, hsub]

/-- The deduplication loop is idempotent for every starting `seen` set. -/
lemma dedup_go_idem (l : List Work) : ∀ seen : List Str,
    dedup_go seen (dedup_go seen l) = dedup_go seen l := by
  induction l with
  | nil => intro seen; rfl
  | cons w ws ih =>
    intro seen
    cases hk : dedup_key w with
    | none => simp [dedup_go, hk, ih]
    | some k =>
      by_cases hs : k ∈ seen
      · simp [dedup_go, hk, hs, ih]
      · simp [dedup_go, hk, hs, ih]

/-- How many works with a given identity key survive the deduplication
loop: none if the key was already seen, else one exactly when the input
contains a work carrying that key. -/
lemma dedup_go_countP (k : Str) : ∀ (l : List Work) (seen : List Str),
    (dedup_go seen l).countP (fun w => decide (dedup_key w = some k))
      = if k ∈ seen then 0
        else if l.any (fun w => decide (dedup_key w = some k)) then 1 else 0 := by
  intro l
  induction l with
  | nil => intro seen; simp [dedup_go]
  | cons w ws ih =>
    intro seen
    cases hdk : dedup_key w with
    | none =>
      have hw : (decide (dedup_key w = some k)) = false := by simp [hdk]
      simp [dedup_go, hdk, ih, List.any_cons, hw]
    | some k' =>
      by_cases hkk : k' = k
      · subst hkk
        have hw : (decide (dedup_key w = some k')) = true := by simp [hdk]
        by_cases hs : k' ∈ seen
        · simp [dedup_go, hdk, hs, ih, hw, List.any_cons]
        · simp [dedup_go, hdk, hs, ih, hw, List.any_cons, List.countP_cons]
      · have hw : (decide (dedup_key w = some k)) = false := by simp [hdk, hkk]
        have hkk' : ¬k = k' := fun h => hkk h.symm
        by_cases hs : k' ∈ seen
        · simp [dedup_go, hdk, hs, ih, hw, List.any_cons, hkk]
        · have hmem : (k ∈ k' :: seen) ↔ (k ∈ seen) := by
            constructor
            · intro h
              rcases List.mem_cons.mp h with h | h
              · exact absurd h hkk'
              · exact h
            · intro h; exact List.mem_cons_of_mem _ h
          simp [dedup_go, hdk, hs, ih, hw, List.any_cons, List.countP_cons,
            hkk, hmem]

/-! Claim theorems. -/

/-- Claim C4: for every work, every profile whose `mode` field is `"none"`,
and every include-concept set, `work_passes_filters` returns `true`
regardless of the other profile fields. -/
theorem passes_mode_none (w : Work) (flt : FilterProfile) (ids : List Str)
    (h : flt.mode = some (strL "none")) :
    work_passes_filters w flt ids = true := by
  simp [work_passes_filters, h]

/-- Witness for `passes_mode_none` at a concrete work and profile whose
other fields are populated. -/
theorem passes_mode_none_witness :
    work_passes_filters
      ⟨some (strL "t"), some (strL "10.1/x"), some 2020, none, none, []⟩
      ⟨some (strL "none"), [strL "10.1/x"], [strL "t"], [strL "t"], some 1⟩
      [] = true :=
  passes_mode_none _ _ _ rfl

/-- Claim C9: the deduplicator is idempotent. -/
theorem dedup_works_idem (works : List Work) :
    dedup_works (dedup_works works) = dedup_works works :=
  dedup_go_idem works []

/-- Claim C2, counterexample: a work with no DOI whose (empty) normalized
DOI lies in the profile's exclude-DOI set, and whose normalized title
trivially contains the empty normalization of the exclude-keyword `"!"`,
still passes through its include-keyword — the claim's antecedent holds
while `work_passes_filters` returns `true`, not `false`. -/
theorem passes_empty_exclusions_included :
    (((⟨none, [[]], [strL "!"], [strL "machine"], none⟩ : FilterProfile).mode.getD
        (strL "include_if_any")) ≠ strL "none") ∧
    doi_norm ((none : Option Str).getD [])
      ∈ ([[]] : List Str).map lowerStr ∧
    containsSub (norm_text (strL "!")) (norm_text (strL "machine learning")) = true ∧
    work_passes_filters
      ⟨some (strL "machine learning"), none, none, none, none, []⟩
      ⟨none, [[]], [strL "!"], [strL "machine"], none⟩ [] = true := by
  decide

/-- Claim C2, amended: with a mode other than `"none"`, a *non-empty*
normalized DOI found in the lowercased exclude-DOI set, or an
exclude-keyword whose normalization is non-empty and occurs in the
normalized title, forces `work_passes_filters` to `false`, regardless of
any include-keyword or concept-score condition; the exclusion checks run
first. -/
theorem passes_exclusion_priority (w : Work) (flt : FilterProfile) (ids : List Str)
    (hmode : flt.mode.getD (strL "include_if_any") ≠ strL "none")
    (hexc :
      (doi_norm (w.doi.getD []) ≠ [] ∧
        doi_norm (w.doi.getD []) ∈ flt.exclude_dois.map lowerStr) ∨
      (∃ k ∈ flt.exclude_title_keywords, norm_text k ≠ [] ∧
        containsSub (norm_text k) (norm_text (w.title.getD [])) = true)) :
    work_passes_filters w flt ids = false := by
  rcases hexc with hdoi | ⟨k, hmem, hne, hsub⟩
  · simp [work_passes_filters, hmode, hdoi]
  · have hm : title_matches (w.title.getD []) flt.exclude_title_keywords = true :=
      title_matches_of_mem _ k _ hmem hne hsub
    by_cases hdoi : (doi_norm (w.doi.getD []) ≠ [] ∧
        doi_norm (w.doi.getD []) ∈ flt.exclude_dois.map lowerStr)
    · simp [work_passes_filters, hmode, hdoi]
    · simp [work_passes_filters, hmode, hdoi, hm]

/-- Witness for `passes_exclusion_priority`: a work whose title matches
both an exclude-keyword and an include-keyword is excluded. -/
theorem passes_exclusion_priority_witness :
    work_passes_filters
      ⟨some (strL "foo bar"), none, none, none, none, []⟩
      ⟨none, [], [strL "foo"], [strL "bar"], none⟩ [] = false :=
  passes_exclusion_priority _ _ _ (by decide)
    (Or.inr ⟨strL "foo", by decide, by decide, by decide⟩)

/-- Claim C10: a keyword that is empty or whose normalization is empty is
skipped by the keyword matcher and can never change the result of
`work_passes_filters`, whether it sits in the include list or in the
exclude list. -/
theorem empty_keyword_no_effect (k : Str) (hk : k = [] ∨ norm_text k = []) :
    (∀ (t : Str) (xs ys : List Str),
      title_matches t (xs ++ k :: ys) = title_matches t (xs ++ ys)) ∧
    (∀ (w : Work) (flt : FilterProfile) (ids : List Str) (xs ys : List Str),
      work_passes_filters w { flt with include_title_keywords := xs ++ k :: ys } ids
        = work_passes_filters w { flt with include_title_keywords := xs ++ ys } ids) ∧
    (∀ (w : Work) (flt : FilterProfile) (ids : List Str) (xs ys : List Str),
      work_passes_filters w { flt with exclude_title_keywords := xs ++ k :: ys } ids
        = work_passes_filters w { flt with exclude_title_keywords := xs ++ ys } ids) := by
  have h1 := title_matches_insert_trivial k hk
  refine ⟨h1, ?_, ?_⟩
  · intro w flt ids xs ys
    simp only [work_passes_filters, h1]
  · intro w flt ids xs ys
    simp only [work_passes_filters, h1]

/-- Witness for `empty_keyword_no_effect` with the keyword `"!"`, whose
normalization is empty. -/
theorem empty_keyword_no_effect_witness :
    ((strL "!" = ([] : Str)) ∨ norm_text (strL "!") = []) ∧
    title_matches (strL "abc") [strL "x", strL "!"]
      = title_matches (strL "abc") [strL "x"] :=
  ⟨Or.inr (by decide),
    (empty_keyword_no_effect (strL "!") (Or.inr (by decide))).1 (strL "abc") [strL "x"] []⟩

/-- Claim C1, counterexample: two works with DOIs `10.1/abc` and
`10.1/ABC/` — identical up to letter casing plus a trailing slash — get
*different* normalized DOIs (the trailing slash is not removed), so the
deduplicator keeps both instead of exactly one. -/
theorem dedup_trailing_slash_kept :
    doi_norm (strL "10.1/abc") = strL "10.1/abc" ∧
    doi_norm (strL "10.1/ABC/") = strL "10.1/abc/" ∧
    dedup_works
      [⟨some (strL "w"), some (strL "10.1/abc"), none, none, none, []⟩,
       ⟨some (strL "w"), some (strL "10.1/ABC/"), none, none, none, []⟩]
      = [⟨some (strL "w"), some (strL "10.1/abc"), none, none, none, []⟩,
         ⟨some (strL "w"), some (strL "10.1/ABC/"), none, none, none, []⟩] := by
  decide

/-- Claim C1, amended: the identity key of a work with a non-empty title is
the normalized DOI whenever that is non-empty, so two works whose DOIs
agree up to letter casing (after stripping and prefix removal — but not up
to a trailing slash, which survives normalization) share one key, and the
deduplicator leaves exactly one work with any given key in its output. -/
theorem dedup_key_collapse (l : List Work) (k : Str) :
    ((dedup_works l).countP (fun w => decide (dedup_key w = some k))
      = if l.any (fun w => decide (dedup_key w = some k)) then 1 else 0) ∧
    (∀ w1 w2 : Work,
      stripWS (w1.title.getD []) ≠ [] → stripWS (w2.title.getD []) ≠ [] →
      doi_norm (w1.doi.getD []) = doi_norm (w2.doi.getD []) →
      doi_norm (w1.doi.getD []) ≠ [] →
      dedup_key w1 = dedup_key w2) := by
  constructor
  · simpa using dedup_go_countP k l []
  · intro w1 w2 h1 h2 heq hne
    simp only [dedup_key, if_neg (by simpa using h1), if_neg (by simpa using h2)]
    rw [if_pos hne, if_pos (heq ▸ hne), heq]

/-- Witness for `dedup_key_collapse`: works with DOIs `10.1/abc` and
`10.1/ABC` (same up to casing) share their key, and deduplicating a list
containing both leaves exactly one work with that key. -/
theorem dedup_key_collapse_witness :
    dedup_key ⟨some (strL "w"), some (strL "10.1/abc"), none, none, none, []⟩
      = dedup_key ⟨some (strL "v"), some (strL "10.1/ABC"), none, none, none, []⟩ ∧
    (dedup_works
        [⟨some (strL "w"), some (strL "10.1/abc"), none, none, none, []⟩,
         ⟨some (strL "v"), some (strL "10.1/ABC"), none, none, none, []⟩]).countP
      (fun w => decide (dedup_key w = some (strL "10.1/abc"))) = 1 :=
  ⟨(dedup_key_collapse [] (strL "10.1/abc")).2 _ _
      (by decide) (by decide) (by decide) (by decide),
   by
    have h := (dedup_key_collapse
      [⟨some (strL "w"), some (strL "10.1/abc"), none, none, none, []⟩,
       ⟨some (strL "v"), some (strL "10.1/ABC"), none, none, none, []⟩]
      (strL "10.1/abc")).1
    rw [h]
    decide⟩

/-- The classification loop is the triple of filters by the three
predicates, in the priority order of `main`'s `if`/`elif`/`else`. -/
lemma split_buckets_eq_filter (l : List Work) :
    split_buckets l
      = (l.filter (fun w => !is_book_or_chapter w && (!is_conference w && !is_egu w)),
         l.filter (fun w => !is_book_or_chapter w && (is_conference w || is_egu w)),
         l.filter (fun w => is_book_or_chapter w)) := by
  induction l with
  | nil => rfl
  | cons v vs ih =>
    simp only [split_buckets, ih]
    by_cases h1 : is_book_or_chapter v <;>
      by_cases hc : is_conference v <;>
      by_cases he : is_egu v <;>
      simp [h1, hc, he, List.filter_cons]

/-- Multiset-level partition (stated over the filter form): each work's
multiplicity is split exactly across the three buckets. -/
lemma filter_buckets_count (l : List Work) (w : Work) :
    ((l.filter (fun w => !is_book_or_chapter w && (!is_conference w && !is_egu w))).count w
      + (l.filter (fun w => !is_book_or_chapter w && (is_conference w || is_egu w))).count w)
      + (l.filter (fun w => is_book_or_chapter w)).count w = l.count w := by
  induction l with
  | nil => simp
  | cons v vs ih =>
    by_cases hv : w = v
    · subst hv
      by_cases h1 : is_book_or_chapter w <;>
        by_cases hc : is_conference w <;>
        by_cases he : is_egu w <;>
        simp_all [List.filter_cons, List.count_cons] <;> omega
    · have hv' : (w == v) = false := by simpa using hv
      by_cases h1 : is_book_or_chapter v <;>
        by_cases hc : is_conference v <;>
        by_cases he : is_egu v <;>
        simp_all [List.filter_cons, List.count_cons]

/-- Multiset-level partition for the buckets themselves. -/
lemma split_buckets_count (l : List Work) (w : Work) :
    ((split_buckets l).1.count w + (split_buckets l).2.1.count w)
      + (split_buckets l).2.2.count w = l.count w := by
  rw [split_buckets_eq_filter]
  exact filter_buckets_count l w

/-- A work typed `book-chapter` satisfies the book/chapter predicate
whatever its venue looks like. -/
lemma book_chapter_is_book (w : Work) (h : w.type = some (strL "book-chapter")) :
    is_book_or_chapter w = true := by
  have hl : lowerStr (strL "book-chapter") = strL "book-chapter" := by decide
  simp [is_book_or_chapter, h, hl]

/-- Claim C3: the classification loop partitions the included works into
three mutually exclusive, exhaustive buckets (journal, conference, book),
and a work whose `type` is `"book-chapter"` always lands in the book
bucket, regardless of its venue (the book/chapter predicate is tested
first). -/
theorem split_buckets_partition (l : List Work) :
    (∀ w : Work,
      ((split_buckets l).1.count w + (split_buckets l).2.1.count w)
        + (split_buckets l).2.2.count w = l.count w) ∧
    (∀ w : Work, w ∈ (split_buckets l).2.2 ↔ w ∈ l ∧ is_book_or_chapter w = true) ∧
    (∀ w : Work, w ∈ (split_buckets l).2.1 ↔ w ∈ l ∧ is_book_or_chapter w = false ∧
      (is_conference w || is_egu w) = true) ∧
    (∀ w : Work, w ∈ (split_buckets l).1 ↔ w ∈ l ∧ is_book_or_chapter w = false ∧
      (is_conference w || is_egu w) = false) ∧
    (∀ w : Work, w ∈ l → w.type = some (strL "book-chapter") →
      w ∈ (split_buckets l).2.2 ∧ w ∉ (split_buckets l).2.1 ∧ w ∉ (split_buckets l).1) := by
  have hf := split_buckets_eq_filter l
  refine ⟨fun w => split_buckets_count l w, ?_, ?_, ?_, fun w hm ht => ?_⟩
  · intro w
    rw [hf]
    simp [List.mem_filter]
  · intro w
    rw [hf]
    simp [List.mem_filter, and_assoc]
  · intro w
    rw [hf]
    simp [List.mem_filter, and_assoc]
  · have hb := book_chapter_is_book w ht
    refine ⟨?_, ?_, ?_⟩
    · rw [hf]
      simp [List.mem_filter, hm, hb]
    · rw [hf]
      simp [List.mem_filter, hb]
    · rw [hf]
      simp [List.mem_filter, hb]

/-- Witness for `split_buckets_partition` at a one-element list: a
`book-chapter` work whose venue display name contains `"conference"` goes
to the book bucket. -/
theorem split_buckets_partition_witness :
    (⟨some (strL "t"), none, none, some (strL "book-chapter"),
        some ⟨some ⟨some (strL "Great conference proceedings"), none⟩⟩, []⟩ : Work)
      ∈ (split_buckets
          [⟨some (strL "t"), none, none, some (strL "book-chapter"),
            some ⟨some ⟨some (strL "Great conference proceedings"), none⟩⟩, []⟩]).2.2 :=
  ((split_buckets_partition _).2.2.2.2 _ (List.mem_cons_self _ _) rfl).1

/-- The definition `numberItems` leaves the works untouched. -/
lemma numberItems_map_snd (n : Nat) : ∀ (i : Nat) (l : List Work),
    (numberItems n i l).map Prod.snd = l := by
  intro i l
  induction l generalizing i with
  | nil => rfl
  | cons w ws ih => simp [numberItems, ih]

/-- The definition `numberItems` preserves length. -/
lemma numberItems_length (n : Nat) : ∀ (i : Nat) (l : List Work),
    (numberItems n i l).length = l.length := by
  intro i l
  induction l generalizing i with
  | nil => rfl
  | cons w ws ih => simp [numberItems, ih]

/-- The emitted numbers are `n - i, n - (i+1), …`. -/
lemma numberItems_map_fst (n : Nat) : ∀ (i : Nat) (l : List Work),
    (numberItems n i l).map Prod.fst
      = (List.range l.length).map (fun j => n - (i + j)) := by
  intro i l
  induction l generalizing i with
  | nil => rfl
  | cons w ws ih =>
    simp only [numberItems, List.map_cons, List.length_cons,
      List.range_succ_eq_map, List.map_map]
    rw [ih (i + 1)]
    refine List.cons_eq_cons.mpr ⟨by omega, List.map_congr_left ?_⟩
    intro j _
    simp only [Function.comp_apply]
    omega

/-- Claim C6: the renderer's item sequence consists of the deduplicated,
sorted works truncated to `min maxItems remaining`, paired with numbers
counting down from the list length to 1 (position `i` carries `n - i`), so
the newest (first) work carries the highest number. -/
theorem build_list_items_numbering (works : List Work) (m : Nat) :
    (build_list_items works m).map Prod.snd
      = (sort_works (dedup_works works)).take m ∧
    (build_list_items works m).length
      = min m (sort_works (dedup_works works)).length ∧
    (build_list_items works m).map Prod.fst
      = (List.range (build_list_items works m).length).map
          (fun i => (build_list_items works m).length - i) := by
  refine ⟨?_, ?_, ?_⟩
  · simp [build_list_items, numberItems_map_snd]
  · simp [build_list_items, numberItems_length, List.length_take]
  · simp only [build_list_items, numberItems_length, numberItems_map_fst,
      List.length_take]
    apply List.map_congr_left
    intro j _
    omega

/-- An ASCII digit is alphanumeric. -/
lemma isDigitCh_alnum (c : Char) (h : isDigitCh c = true) : pyIsAlnum c = true := by
  simp only [isDigitCh, Bool.and_eq_true, decide_eq_true_eq] at h
  simp only [pyIsAlnum, Bool.or_eq_true, Bool.and_eq_true, decide_eq_true_eq]
  omega

/-- The code's identifier pattern is contained in the spec's wording of it
(digits are alphanumeric, and so is the check digit `X`). -/
lemma orcid_re_imp_spec (s : Str) (h : orcid_re_match s = true) :
    specOrcidPattern s = true := by
  unfold orcid_re_match at h
  unfold specOrcidPattern
  split at h
  next a1 a2 a3 a4 d1 b1 b2 b3 b4 d2 c1 c2 c3 c4 d3 e1 e2 e3 e4 =>
    simp only [Bool.and_eq_true] at h
    obtain ⟨⟨⟨⟨⟨⟨⟨⟨⟨⟨⟨⟨⟨⟨⟨⟨⟨⟨h1, h2⟩, h3⟩, h4⟩, hd1⟩, h5⟩, h6⟩, h7⟩, h8⟩,
      hd2⟩, h9⟩, h10⟩, h11⟩, h12⟩, hd3⟩, h13⟩, h14⟩, h15⟩, h16⟩ := h
    have hx : pyIsAlnum e4 = true := by
      rcases Bool.or_eq_true _ _ |>.mp h16 with hx | hx
      · exact isDigitCh_alnum _ hx
      · rw [decide_eq_true_eq] at hx
        subst hx
        decide
    simp [isDigitCh_alnum _ h1, isDigitCh_alnum _ h2, isDigitCh_alnum _ h3,
      isDigitCh_alnum _ h4, isDigitCh_alnum _ h5, isDigitCh_alnum _ h6,
      isDigitCh_alnum _ h7, isDigitCh_alnum _ h8, isDigitCh_alnum _ h9,
      isDigitCh_alnum _ h10, isDigitCh_alnum _ h11, isDigitCh_alnum _ h12,
      isDigitCh_alnum _ h13, isDigitCh_alnum _ h14, isDigitCh_alnum _ h15,
      hx, hd1, hd2, hd3]
  next =>
    cases h

/-- The definition `memberOfRow` succeeds exactly on rows whose stripped identifier
matches the regex, and then stores that identifier. -/
lemma memberOfRow_ok (row : CsvRow) (m : Member)
    (h : memberOfRow row = Except.ok m) :
    orcid_re_match m.orcid = true := by
  simp only [memberOfRow] at h
  split at h
  next hre =>
    cases h
    exact hre
  next =>
    cases h

/-- The definition `memberOfRow` fails on rows whose stripped identifier violates the
regex. -/
lemma memberOfRow_error (row : CsvRow)
    (h : orcid_re_match (stripWS (row.orcid.getD [])) = false) :
    ∃ e, memberOfRow row = Except.error e := by
  simp [memberOfRow, h]

/-- If any row makes `memberOfRow` fail, the whole traversal fails. -/
lemma membersOfRows_error : ∀ rows : List CsvRow,
    (∃ row ∈ rows, ∃ e, memberOfRow row = Except.error e) →
    ∃ e, membersOfRows rows = Except.error e := by
  intro rows
  induction rows with
  | nil => rintro ⟨row, hmem, _⟩; cases hmem
  | cons r rs ih =>
    rintro ⟨row, hmem, e, herr⟩
    rcases List.mem_cons.mp hmem with rfl | hmem
    · exact ⟨e, by simp only [membersOfRows, herr]⟩
    · cases hr : memberOfRow r with
      | error e' => exact ⟨e', by simp only [membersOfRows, hr]⟩
      | ok m =>
        obtain ⟨e', he'⟩ := ih ⟨row, hmem, e, herr⟩
        exact ⟨e', by simp only [membersOfRows, hr, he']⟩

/-- A successful traversal only produces members accepted by
`memberOfRow`. -/
lemma membersOfRows_ok : ∀ (rows : List CsvRow) (ms : List Member),
    membersOfRows rows = Except.ok ms →
    ∀ m ∈ ms, orcid_re_match m.orcid = true := by
  intro rows
  induction rows with
  | nil =>
    intro ms h m hm
    simp only [membersOfRows] at h
    cases h
    cases hm
  | cons r rs ih =>
    intro ms h m hm
    simp only [membersOfRows] at h
    cases hr : memberOfRow r with
    | error e => rw [hr] at h; cases h
    | ok m0 =>
      rw [hr] at h
      cases hrs : membersOfRows rs with
      | error e => rw [hrs] at h; cases h
      | ok tl =>
        rw [hrs] at h
        cases h
        rcases List.mem_cons.mp hm with rfl | hm
        · exact memberOfRow_ok r m hr
        · exact ih tl hrs m hm

/-- Claim C7: loading the member file aborts whenever some row's stripped
identifier fails the validation pattern (stated with the spec's wording of
the pattern, which the regex refines), and every member produced by a
successful load carries an identifier matching both the regex and the
spec's pattern. -/
theorem read_members_csv_orcid_validation :
    (∀ rows : List CsvRow,
      (∃ row ∈ rows, specOrcidPattern (stripWS (row.orcid.getD [])) = false) →
      ∃ e, read_members_csv rows = Except.error e) ∧
    (∀ (rows : List CsvRow) (ms : List Member),
      read_members_csv rows = Except.ok ms →
      ∀ m ∈ ms, orcid_re_match m.orcid = true ∧ specOrcidPattern m.orcid = true) := by
  constructor
  · rintro rows ⟨row, hmem, hbad⟩
    have hre : orcid_re_match (stripWS (row.orcid.getD [])) = false := by
      cases hr : orcid_re_match (stripWS (row.orcid.getD []))
      · rfl
      · rw [orcid_re_imp_spec _ hr] at hbad
        cases hbad
    obtain ⟨e, he⟩ := membersOfRows_error rows ⟨row, hmem, memberOfRow_error row hre⟩
    exact ⟨e, by simp only [read_members_csv, he]⟩
  · intro rows ms h m hm
    simp only [read_members_csv] at h
    split at h
    next => cases h
    next =>
      rename_i ms0 heq
      split at h
      next => cases h
      next =>
        cases h
        have hre := membersOfRows_ok rows ms heq m hm
        exact ⟨hre, orcid_re_imp_spec _ hre⟩

/-- Witness for `read_members_csv_orcid_validation`: a row with identifier
`bad` aborts the load; the valid file with one well-formed row yields a
member whose identifier matches the pattern. -/
theorem read_members_csv_orcid_validation_witness :
    (∃ e, read_members_csv [⟨some (strL "bad"), none, none, none⟩]
      = Except.error e) ∧
    (∀ m ∈ [(⟨strL "0000-0002-1825-0097", strL "Mario Rossi", strL "none"⟩ : Member)],
      orcid_re_match m.orcid = true ∧ specOrcidPattern m.orcid = true) :=
  ⟨read_members_csv_orcid_validation.1 _
    ⟨⟨some (strL "bad"), none, none, none⟩, List.mem_singleton.mpr rfl, by decide⟩,
   read_members_csv_orcid_validation.2
    [⟨some (strL "0000-0002-1825-0097"), some (strL "Mario Rossi"), none, none⟩]
    _ (by rfl)⟩

/-- The definition `Char.toNat` is injective. -/
lemma char_toNat_inj {c d : Char} (h : c.toNat = d.toNat) : c = d :=
  Char.eq_of_val_eq (UInt32.eq_of_toBitVec_eq (BitVec.eq_of_toNat_eq h))

/-- The definition `Char.ofNat` round-trips on code points below the surrogate range. -/
lemma char_toNat_ofNat {n : Nat} (h : n < 55296) : (Char.ofNat n).toNat = n := by
  have hv : n.isValidChar := Or.inl h
  rw [Char.ofNat, dif_pos hv]
  rfl

/-- Lexicographic string comparison is total. -/
lemma pyStrLe_total : ∀ s t : Str, pyStrLe s t = true ∨ pyStrLe t s = true := by
  intro s
  induction s with
  | nil => intro t; left; rfl
  | cons a as ih =>
    intro t
    cases t with
    | nil => right; rfl
    | cons b bs =>
      by_cases hab : a = b
      · subst hab
        simp only [pyStrLe, if_pos rfl]
        exact ih bs
      · have hba : ¬b = a := fun h => hab h.symm
        have hne : a.toNat ≠ b.toNat := fun h => hab (char_toNat_inj h)
        simp only [pyStrLe, if_neg hab, if_neg hba, decide_eq_true_eq]
        omega

/-- Lexicographic string comparison is transitive. -/
lemma pyStrLe_trans : ∀ s t u : Str,
    pyStrLe s t = true → pyStrLe t u = true → pyStrLe s u = true := by
  intro s
  induction s with
  | nil => intro t u _ _; rfl
  | cons a as ih =>
    intro t u h1 h2
    cases t with
    | nil => cases h1
    | cons b bs =>
      cases u with
      | nil => cases h2
      | cons c cs =>
        by_cases hab : a = b
        · subst hab
          simp only [pyStrLe, if_pos rfl] at h1
          by_cases hac : a = c
          · subst hac
            simp only [pyStrLe, if_pos rfl] at h2 ⊢
            exact ih bs cs h1 h2
          · simp only [pyStrLe, if_neg hac] at h2 ⊢
            exact h2
        · simp only [pyStrLe, if_neg hab, decide_eq_true_eq] at h1
          by_cases hbc : b = c
          · subst hbc
            simp only [pyStrLe, if_neg hab, decide_eq_true_eq]
            exact h1
          · simp only [pyStrLe, if_neg hbc, decide_eq_true_eq] at h2
            have hane : ¬a = c := by
              intro h
              subst h
              have : a.toNat = a.toNat := rfl
              omega
            simp only [pyStrLe, if_neg hane, decide_eq_true_eq]
            omega

/-- The sort-key comparison is total. -/
lemma work_leB_total (w1 w2 : Work) :
    work_leB w1 w2 = true ∨ work_leB w2 w1 = true := by
  unfold work_leB
  rcases Int.lt_trichotomy (-(yearRank w1)) (-(yearRank w2)) with h | h | h
  · left; rw [if_pos h]
  · rcases pyStrLe_total (lowerStr (w1.title.getD [])) (lowerStr (w2.title.getD []))
      with hs | hs
    · left
      rw [if_neg (by omega), if_pos h]
      exact hs
    · right
      rw [if_neg (by omega), if_pos h.symm]
      exact hs
  · right; rw [if_pos h]

/-- The sort-key comparison is transitive. -/
lemma work_leB_trans (w1 w2 w3 : Work) (h1 : work_leB w1 w2 = true)
    (h2 : work_leB w2 w3 = true) : work_leB w1 w3 = true := by
  unfold work_leB at h1 h2 ⊢
  by_cases h12 : -(yearRank w1) < -(yearRank w2)
  · by_cases h23 : -(yearRank w2) < -(yearRank w3)
    · rw [if_pos (by omega)]
    · by_cases h23e : -(yearRank w2) = -(yearRank w3)
      · rw [if_pos (by omega)]
      · rw [if_neg h23, if_neg h23e] at h2; cases h2
  · by_cases h12e : -(yearRank w1) = -(yearRank w2)
    · by_cases h23 : -(yearRank w2) < -(yearRank w3)
      · rw [if_pos (by omega)]
      · by_cases h23e : -(yearRank w2) = -(yearRank w3)
        · rw [if_neg h12, if_pos h12e] at h1
          rw [if_neg h23, if_pos h23e] at h2
          rw [if_neg (by omega), if_pos (by omega)]
          exact pyStrLe_trans _ _ _ h1 h2
        · rw [if_neg h23, if_neg h23e] at h2; cases h2
    · rw [if_neg h12, if_neg h12e] at h1; cases h1

instance : IsTotal Work workLe :=
  ⟨fun a b => work_leB_total a b⟩

instance : IsTrans Work workLe :=
  ⟨fun a b c h1 h2 => work_leB_trans a b c h1 h2⟩

/-- Claim C8, counterexample: the sort key maps a missing year to the
sentinel `-1`, so a work with the real year `-2` is ranked *below* a
work with no year at all — the first element of the sorted output has no
year while the second carries a real year. -/
theorem sort_missing_year_above_real :
    (⟨some (strL "a"), none, none, none, none, []⟩ : Work).publication_year = none ∧
    (⟨some (strL "b"), none, some (-2), none, none, []⟩ : Work).publication_year
      = some (-2) ∧
    sort_works [⟨some (strL "a"), none, none, none, none, []⟩,
                ⟨some (strL "b"), none, some (-2), none, none, []⟩]
      = [⟨some (strL "a"), none, none, none, none, []⟩,
         ⟨some (strL "b"), none, some (-2), none, none, []⟩] := by
  refine ⟨rfl, rfl, ?_⟩
  rfl

/-- Claim C8, amended: the renderer's sort permutes its input into
descending order of the effective year (the year, with a missing or
non-integer year replaced by the sentinel `-1`, hence ranked below every
year greater than `-1`), breaking effective-year ties by ascending
lowercased title. -/
theorem sort_works_sorted (l : List Work) :
    List.Sorted (fun w1 w2 =>
      yearRank w2 < yearRank w1 ∨
      (yearRank w1 = yearRank w2 ∧
        pyStrLe (lowerStr (w1.title.getD [])) (lowerStr (w2.title.getD [])) = true))
      (sort_works l) ∧
    (sort_works l).Perm l := by
  constructor
  · have hs : List.Sorted workLe (sort_works l) :=
      List.sorted_insertionSort workLe l
    refine List.Pairwise.imp ?_ hs
    intro a b hab
    unfold workLe work_leB at hab
    by_cases h : -(yearRank a) < -(yearRank b)
    · left; omega
    · by_cases he : -(yearRank a) = -(yearRank b)
      · refine Or.inr ⟨by omega, ?_⟩
        rw [if_neg h, if_pos he] at hab
        exact hab
      · rw [if_neg h, if_neg he] at hab; cases hab
  · exact List.perm_insertionSort workLe l

/-! Character-level facts for the normalizer. -/

/-- The definition `pyLower` is the identity outside the uppercase range. -/
lemma pyLower_fixed {c : Char} (h : ¬(65 ≤ c.toNat ∧ c.toNat ≤ 90)) :
    pyLower c = c := if_neg h

/-- The definition `pyLower` never produces an uppercase character. -/
lemma pyLower_notUpper (c : Char) :
    ¬(65 ≤ (pyLower c).toNat ∧ (pyLower c).toNat ≤ 90) := by
  unfold pyLower
  by_cases h : 65 ≤ c.toNat ∧ c.toNat ≤ 90
  · rw [if_pos h, char_toNat_ofNat (by omega)]
    omega
  · rw [if_neg h]
    exact h

/-- The definition `pyLower` is idempotent. -/
lemma pyLower_idem (c : Char) : pyLower (pyLower c) = pyLower c :=
  pyLower_fixed (pyLower_notUpper c)

/-- Kept characters are NFKC-stable in the modelled fragment. -/
lemma keep_nfkc {c : Char} (h : keepChar c = true) : nfkcChar c = c := by
  have h1 : c ≠ '﹘' := by rintro rfl; exact absurd h (by decide)
  have h2 : c ≠ '﹣' := by rintro rfl; exact absurd h (by decide)
  have h3 : c ≠ '－' := by rintro rfl; exact absurd h (by decide)
  simp [nfkcChar, h1, h2, h3]

/-- No dash code point is kept by the normalizer's filter. -/
lemma dash_not_keep {c : Char} (hc : c ∈ DASHES) : keepChar c = false := by
  have h : ∀ d ∈ DASHES, keepChar d = false := by decide
  exact h c hc

/-- Kept characters are neither underscore nor slash. -/
lemma keep_not_us {c : Char} (h : keepChar c = true) :
    (c = '_' || c = '/') = false := by
  have h1 : c ≠ '_' := by rintro rfl; exact absurd h (by decide)
  have h2 : c ≠ '/' := by rintro rfl; exact absurd h (by decide)
  simp [h1, h2]

/-- The only kept whitespace character is the space. -/
lemma keep_ws_space {c : Char} (hk : keepChar c = true) (hw : pyWS c = true) :
    c = ' ' := by
  simp only [pyWS, Bool.or_eq_true, decide_eq_true_eq] at hw
  rcases hw with ((((h | h) | h) | h) | h) | h
  · exact h
  · subst h; exact absurd hk (by decide)
  · subst h; exact absurd hk (by decide)
  · subst h; exact absurd hk (by decide)
  · subst h; exact absurd hk (by decide)
  · subst h; exact absurd hk (by decide)

/-- Mapping a function that fixes every member is the identity. -/
lemma map_id_of_mem {f : Char → Char} : ∀ l : Str,
    (∀ c ∈ l, f c = c) → l.map f = l := by
  intro l
  induction l with
  | nil => intro _; rfl
  | cons x xs ih =>
    intro h
    simp only [List.map_cons, h x (List.mem_cons_self _ _),
      ih fun c hc => h c (List.mem_cons_of_mem _ hc)]

/-! Generic facts about `collapseRunsAux`. The four equations below unfold
one step of the recursion. -/

lemma caux_false_pos {p : Char → Bool} {r x : Char} {xs : Str} (hp : p x = true) :
    collapseRunsAux p r false (x :: xs) = r :: collapseRunsAux p r true xs := by
  simp [collapseRunsAux, hp]

lemma caux_false_neg {p : Char → Bool} {r x : Char} {xs : Str} (hp : p x = false) :
    collapseRunsAux p r false (x :: xs) = x :: collapseRunsAux p r false xs := by
  simp [collapseRunsAux, hp]

lemma caux_true_pos {p : Char → Bool} {r x : Char} {xs : Str} (hp : p x = true) :
    collapseRunsAux p r true (x :: xs) = collapseRunsAux p r true xs := by
  simp [collapseRunsAux, hp]

lemma caux_true_neg {p : Char → Bool} {r x : Char} {xs : Str} (hp : p x = false) :
    collapseRunsAux p r true (x :: xs) = x :: collapseRunsAux p r false xs := by
  simp [collapseRunsAux, hp]

/-- Members of the collapsed string come from the input or equal the
replacement character. -/
lemma collapseRunsAux_mem {p : Char → Bool} {r : Char} : ∀ (l : Str) (flag : Bool)
    (c : Char), c ∈ collapseRunsAux p r flag l → c = r ∨ c ∈ l := by
  intro l
  induction l with
  | nil => intro flag c h; cases flag <;> cases h
  | cons x xs ih =>
    intro flag c h
    have step : ∀ d, c = d ∨ c ∈ collapseRunsAux p r false xs → c = r ∨ c ∈ d :: xs := by
      intro d hd
      rcases hd with rfl | hd
      · exact Or.inr (List.mem_cons_self _ _)
      · rcases ih false c hd with h' | h'
        · exact Or.inl h'
        · exact Or.inr (List.mem_cons_of_mem _ h')
    cases flag
    · cases hp : p x
      · rw [caux_false_neg hp] at h
        exact step x (List.mem_cons.mp h)
      · rw [caux_false_pos hp] at h
        rcases List.mem_cons.mp h with rfl | h
        · exact Or.inl rfl
        · rcases ih true c h with h' | h'
          · exact Or.inl h'
          · exact Or.inr (List.mem_cons_of_mem _ h')
    · cases hp : p x
      · rw [caux_true_neg hp] at h
        exact step x (List.mem_cons.mp h)
      · rw [caux_true_pos hp] at h
        rcases ih true c h with h' | h'
        · exact Or.inl h'
        · exact Or.inr (List.mem_cons_of_mem _ h')

/-- Inside a run (`flag = true`) the first emitted character never
satisfies `p`. -/
lemma collapseRunsAux_true_head {p : Char → Bool} {r : Char} : ∀ (l : Str)
    (c : Char), (collapseRunsAux p r true l).head? = some c → p c = false := by
  intro l
  induction l with
  | nil => intro c h; cases h
  | cons x xs ih =>
    intro c h
    cases hp : p x
    · rw [caux_true_neg hp, List.head?_cons] at h
      cases h
      exact hp
    · rw [caux_true_pos hp] at h
      exact ih c h

/-- Outside a run the first emitted character is the replacement or the
input's head. -/
lemma collapseRunsAux_false_head {p : Char → Bool} {r : Char} (l : Str) (c : Char)
    (h : (collapseRunsAux p r false l).head? = some c) :
    c = r ∨ l.head? = some c := by
  cases l with
  | nil => cases h
  | cons y ys =>
    cases hp : p y
    · rw [caux_false_neg hp, List.head?_cons] at h
      exact Or.inr (by rw [List.head?_cons, h])
    · rw [caux_false_pos hp, List.head?_cons] at h
      cases h
      exact Or.inl rfl

/-- The collapsed string has no two adjacent characters satisfying `p`. -/
lemma collapseRunsAux_chain_self {p : Char → Bool} {r : Char} : ∀ (l : Str)
    (flag : Bool),
    List.Chain' (fun a b => ¬(p a = true ∧ p b = true))
      (collapseRunsAux p r flag l) := by
  intro l
  induction l with
  | nil => intro flag; cases flag <;> exact List.chain'_nil
  | cons x xs ih =>
    intro flag
    have hneg : p x = false →
        List.Chain' (fun a b => ¬(p a = true ∧ p b = true))
          (x :: collapseRunsAux p r false xs) := by
      intro hp
      refine List.chain'_cons'.mpr ⟨?_, ih false⟩
      intro y _ hcon
      rw [hp] at hcon
      cases hcon.1
    cases flag
    · cases hp : p x
      · rw [caux_false_neg hp]
        exact hneg hp
      · rw [caux_false_pos hp]
        refine List.chain'_cons'.mpr ⟨?_, ih true⟩
        intro y hy hcon
        rw [collapseRunsAux_true_head xs y hy] at hcon
        cases hcon.2
    · cases hp : p x
      · rw [caux_true_neg hp]
        exact hneg hp
      · rw [caux_true_pos hp]
        exact ih true

/-- Collapsing preserves any chain relation that accepts the replacement
character on either side. -/
lemma collapseRunsAux_chain_preserve {p : Char → Bool} {r : Char}
    {Q : Char → Char → Prop} (hQr : ∀ a, Q a r) (hrQ : ∀ b, Q r b) :
    ∀ (l : Str) (flag : Bool), List.Chain' Q l →
    List.Chain' Q (collapseRunsAux p r flag l) := by
  intro l
  induction l with
  | nil => intro flag _; cases flag <;> exact List.chain'_nil
  | cons x xs ih =>
    intro flag h
    have hxs : List.Chain' Q xs := (List.chain'_cons'.mp h).2
    have hhd : ∀ y, xs.head? = some y → Q x y := (List.chain'_cons'.mp h).1
    have hneg : List.Chain' Q (x :: collapseRunsAux p r false xs) := by
      refine List.chain'_cons'.mpr ⟨?_, ih false hxs⟩
      intro y hy
      rcases collapseRunsAux_false_head xs y hy with rfl | hy'
      · exact hQr x
      · exact hhd y hy'
    cases flag
    · cases hp : p x
      · rw [caux_false_neg hp]
        exact hneg
      · rw [caux_false_pos hp]
        exact List.chain'_cons'.mpr ⟨fun y _ => hrQ y, ih true hxs⟩
    · cases hp : p x
      · rw [caux_true_neg hp]
        exact hneg
      · rw [caux_true_pos hp]
        exact ih true hxs

/-- On a string in which every `p`-character is the replacement and no two
adjacent characters satisfy `p`, collapsing is the identity. -/
lemma collapseRunsAux_id {p : Char → Bool} {r : Char} : ∀ l : Str,
    (∀ c ∈ l, p c = true → c = r) →
    List.Chain' (fun a b => ¬(p a = true ∧ p b = true)) l →
    collapseRunsAux p r false l = l ∧
    ((∀ c, l.head? = some c → p c = false) → collapseRunsAux p r true l = l) := by
  intro l
  induction l with
  | nil => intro _ _; exact ⟨rfl, fun _ => rfl⟩
  | cons x xs ih =>
    intro hmem hch
    have hxs := (List.chain'_cons'.mp hch).2
    have hhd := (List.chain'_cons'.mp hch).1
    obtain ⟨ih1, ih2⟩ :=
      ih (fun c hc hp => hmem c (List.mem_cons_of_mem _ hc) hp) hxs
    constructor
    · cases hp : p x
      · rw [caux_false_neg hp, ih1]
      · have hxr : x = r := hmem x (List.mem_cons_self _ _) hp
        rw [caux_false_pos hp, ih2, hxr]
        intro c hc
        by_contra hpc
        rw [Bool.not_eq_false] at hpc
        exact hhd c hc ⟨hp, hpc⟩
    · intro hd
      have hpx : p x = false := hd x rfl
      rw [caux_true_neg hpx, ih1]

/-- The last emitted character is the replacement or the input's last. -/
lemma collapseRunsAux_getLast {p : Char → Bool} {r : Char} : ∀ (l : Str)
    (flag : Bool) (c : Char), (collapseRunsAux p r flag l).getLast? = some c →
    c = r ∨ l.getLast? = some c := by
  intro l
  induction l with
  | nil => intro flag c h; cases flag <;> cases h
  | cons x xs ih =>
    intro flag c h
    have hcons : ∀ z : Char, xs.getLast? = some z → (x :: xs).getLast? = some z := by
      intro z hz
      cases xs with
      | nil => cases hz
      | cons y ys => rwa [List.getLast?_cons_cons]
    have hneg : (x :: collapseRunsAux p r false xs).getLast? = some c →
        c = r ∨ (x :: xs).getLast? = some c := by
      intro h
      cases hR : collapseRunsAux p r false xs with
      | nil =>
        rw [hR] at h
        simp only [List.getLast?_singleton, Option.some.injEq] at h
        subst h
        cases xs with
        | nil => exact Or.inr rfl
        | cons y ys =>
          exfalso
          cases hpy : p y
          · rw [caux_false_neg hpy] at hR
            cases hR
          · rw [caux_false_pos hpy] at hR
            cases hR
      | cons z zs =>
        rw [hR, List.getLast?_cons_cons, ← hR] at h
        rcases ih false c h with h' | h'
        · exact Or.inl h'
        · exact Or.inr (hcons c h')
    cases flag
    · cases hp : p x
      · rw [caux_false_neg hp] at h
        exact hneg h
      · rw [caux_false_pos hp] at h
        cases hR : collapseRunsAux p r true xs with
        | nil =>
          rw [hR] at h
          simp only [List.getLast?_singleton, Option.some.injEq] at h
          exact Or.inl h.symm
        | cons z zs =>
          rw [hR, List.getLast?_cons_cons, ← hR] at h
          rcases ih true c h with h' | h'
          · exact Or.inl h'
          · exact Or.inr (hcons c h')
    · cases hp : p x
      · rw [caux_true_neg hp] at h
        exact hneg h
      · rw [caux_true_pos hp] at h
        rcases ih true c h with h' | h'
        · exact Or.inl h'
        · exact Or.inr (hcons c h')

/-! Facts about `dropWhile` and `stripWS`. -/

/-- The definition `dropWhile` only removes characters. -/
lemma mem_dropWhile {p : Char → Bool} : ∀ l : Str, ∀ c ∈ l.dropWhile p, c ∈ l := by
  intro l
  induction l with
  | nil => intro c h; cases h
  | cons x xs ih =>
    intro c h
    cases hp : p x
    · rw [List.dropWhile_cons, hp] at h
      simpa using h
    · rw [List.dropWhile_cons, hp] at h
      simp only [if_true] at h
      exact List.mem_cons_of_mem _ (ih c h)

/-- The head surviving `dropWhile p` does not satisfy `p`. -/
lemma dropWhile_head {p : Char → Bool} : ∀ (l : Str) (c : Char),
    (l.dropWhile p).head? = some c → p c = false := by
  intro l
  induction l with
  | nil => intro c h; cases h
  | cons x xs ih =>
    intro c h
    cases hp : p x
    · rw [List.dropWhile_cons, hp] at h
      simp only [Bool.false_eq_true, if_false, List.head?_cons] at h
      cases h
      exact hp
    · rw [List.dropWhile_cons, hp] at h
      simp only [if_true] at h
      exact ih c h

/-- The definition `dropWhile` keeps the last element of a non-empty result. -/
lemma dropWhile_getLast {p : Char → Bool} : ∀ (l : Str) (c : Char),
    (l.dropWhile p).getLast? = some c → l.getLast? = some c := by
  intro l
  induction l with
  | nil => intro c h; cases h
  | cons x xs ih =>
    intro c h
    cases hp : p x
    · rw [List.dropWhile_cons, hp] at h
      simpa using h
    · rw [List.dropWhile_cons, hp] at h
      simp only [if_true] at h
      have h' := ih c h
      cases xs with
      | nil => cases h'
      | cons y ys => rwa [List.getLast?_cons_cons]

/-- The definition `dropWhile` preserves any chain relation (the result is a suffix). -/
lemma chain'_dropWhile {p : Char → Bool} {Q : Char → Char → Prop} : ∀ l : Str,
    List.Chain' Q l → List.Chain' Q (l.dropWhile p) := by
  intro l
  induction l with
  | nil => intro _; exact List.chain'_nil
  | cons x xs ih =>
    intro h
    cases hp : p x
    · rwa [List.dropWhile_cons, hp, if_neg (by simp)]
    · rw [List.dropWhile_cons, hp, if_pos rfl]
      exact ih (List.chain'_cons'.mp h).2

/-- The definition `dropWhile` is the identity when the head does not satisfy `p`. -/
lemma dropWhile_id {p : Char → Bool} (l : Str)
    (h : ∀ c, l.head? = some c → p c = false) : l.dropWhile p = l := by
  cases l with
  | nil => rfl
  | cons x xs =>
    rw [List.dropWhile_cons, h x rfl]
    simp

/-- The definition `stripWS` only removes characters. -/
lemma stripWS_mem (l : Str) (c : Char) (h : c ∈ stripWS l) : c ∈ l := by
  unfold stripWS at h
  rw [List.mem_reverse] at h
  have h1 := mem_dropWhile _ c h
  rw [List.mem_reverse] at h1
  exact mem_dropWhile _ c h1

/-- The head of a stripped string is not whitespace. -/
lemma stripWS_head (l : Str) (c : Char) (h : (stripWS l).head? = some c) :
    pyWS c = false := by
  unfold stripWS at h
  rw [List.head?_reverse] at h
  have h1 := dropWhile_getLast _ c h
  rw [List.getLast?_reverse] at h1
  exact dropWhile_head _ c h1

/-- The last character of a stripped string is not whitespace. -/
lemma stripWS_getLast (l : Str) (c : Char) (h : (stripWS l).getLast? = some c) :
    pyWS c = false := by
  unfold stripWS at h
  rw [List.getLast?_reverse] at h
  exact dropWhile_head _ c h

/-- The definition `stripWS` preserves a symmetric chain relation. -/
lemma stripWS_chain {Q : Char → Char → Prop} (hsymm : ∀ a b, Q a b → Q b a)
    (l : Str) (h : List.Chain' Q l) : List.Chain' Q (stripWS l) := by
  unfold stripWS
  rw [List.chain'_reverse]
  refine List.Chain'.imp (fun a b hab => hsymm a b hab) ?_
  refine chain'_dropWhile _ ?_
  rw [List.chain'_reverse]
  refine List.Chain'.imp (fun a b hab => hsymm a b hab) ?_
  exact chain'_dropWhile _ h

/-- The definition `stripWS` is the identity when neither end is whitespace. -/
lemma stripWS_id (l : Str)
    (hh : ∀ c, l.head? = some c → pyWS c = false)
    (hl : ∀ c, l.getLast? = some c → pyWS c = false) : stripWS l = l := by
  unfold stripWS
  rw [dropWhile_id l hh]
  rw [dropWhile_id l.reverse (fun c hc => hl c (by rwa [List.head?_reverse] at hc))]
  exact List.reverse_reverse l

/-! The normalizer's output invariant and idempotence. -/

/-- Shape of every `norm_text` output: only kept (lowercase) characters, no
two adjacent whitespace characters, no whitespace at either end, and no two
adjacent hyphens. -/
def NormOut (t : Str) : Prop :=
  (∀ c ∈ t, keepChar c = true) ∧
  (∀ c ∈ t, pyLower c = c) ∧
  List.Chain' (fun a b => ¬(pyWS a = true ∧ pyWS b = true)) t ∧
  (∀ c, t.head? = some c → pyWS c = false) ∧
  (∀ c, t.getLast? = some c → pyWS c = false) ∧
  List.Chain' (fun a b =>
    ¬((fun c : Char => decide (c = '-')) a = true ∧
      (fun c : Char => decide (c = '-')) b = true)) t

/-- After the lowering, dash and underscore/slash stages every character is
`pyLower`-fixed. -/
lemma char_stage_lower (c : Char) :
    pyLower ((fun c => if c = '_' || c = '/' then ' ' else c)
      ((fun c => if c ∈ DASHES then '-' else c) (pyLower c)))
      = ((fun c => if c = '_' || c = '/' then ' ' else c)
        ((fun c => if c ∈ DASHES then '-' else c) (pyLower c))) := by
  by_cases h1 : pyLower c ∈ DASHES
  · simp only [if_pos h1]
    decide
  · simp only [if_neg h1]
    by_cases h2 : (pyLower c = '_' || pyLower c = '/') = true
    · simp only [if_pos h2]
      decide
    · simp only [if_neg h2]
      exact pyLower_idem c

/-- Every character of the filtered stage is kept. -/
lemma mem_filter_map_keep (s : Str) :
    ∀ c ∈ s.map (fun c => if keepChar c then c else ' '), keepChar c = true := by
  intro c hc
  obtain ⟨d, _, rfl⟩ := List.mem_map.mp hc
  by_cases h : keepChar d = true
  · simp only [h, if_true]
  · simp only [h, Bool.false_eq_true, if_false]
    decide

/-- The filtered stage keeps `pyLower`-fixed characters `pyLower`-fixed. -/
lemma mem_filter_map_lower (s : Str) (hs : ∀ c ∈ s, pyLower c = c) :
    ∀ c ∈ s.map (fun c => if keepChar c then c else ' '), pyLower c = c := by
  intro c hc
  obtain ⟨d, hd, rfl⟩ := List.mem_map.mp hc
  by_cases h : keepChar d = true
  · simp only [h, if_true]
    exact hs d hd
  · simp only [h, Bool.false_eq_true, if_false]
    decide

/-- The tail of `norm_text` — whitespace collapse, strip and hyphen
collapse applied to a filtered, lowered string — satisfies the output
invariant. -/
lemma normOut_assemble (s4 : Str) (h4 : ∀ c ∈ s4, pyLower c = c) :
    NormOut (collapseRuns (fun c => c = '-') '-'
      (stripWS (collapseRuns pyWS ' '
        (s4.map (fun c => if keepChar c then c else ' '))))) := by
  have h5keep := mem_filter_map_keep s4
  have h5low := mem_filter_map_lower s4 h4
  set s5 := s4.map (fun c => if keepChar c then c else ' ') with hs5
  set u1 := collapseRuns pyWS ' ' s5 with hu1
  set u2 := stripWS u1 with hu2
  have hu1keep : ∀ c ∈ u1, keepChar c = true := by
    intro c hc
    rcases collapseRunsAux_mem s5 false c hc with rfl | hc'
    · decide
    · exact h5keep c hc'
  have hu1low : ∀ c ∈ u1, pyLower c = c := by
    intro c hc
    rcases collapseRunsAux_mem s5 false c hc with rfl | hc'
    · decide
    · exact h5low c hc'
  have hu2keep : ∀ c ∈ u2, keepChar c = true :=
    fun c hc => hu1keep c (stripWS_mem u1 c hc)
  have hu2low : ∀ c ∈ u2, pyLower c = c :=
    fun c hc => hu1low c (stripWS_mem u1 c hc)
  have hWSsymm : ∀ a b : Char, ¬(pyWS a = true ∧ pyWS b = true) →
      ¬(pyWS b = true ∧ pyWS a = true) := fun a b h hc => h ⟨hc.2, hc.1⟩
  have hu1chain : List.Chain' (fun a b => ¬(pyWS a = true ∧ pyWS b = true)) u1 :=
    collapseRunsAux_chain_self s5 false
  have hu2chain : List.Chain' (fun a b => ¬(pyWS a = true ∧ pyWS b = true)) u2 :=
    stripWS_chain hWSsymm u1 hu1chain
  refine ⟨?_, ?_, ?_, ?_, ?_, ?_⟩
  · intro c hc
    rcases collapseRunsAux_mem u2 false c hc with rfl | hc'
    · decide
    · exact hu2keep c hc'
  · intro c hc
    rcases collapseRunsAux_mem u2 false c hc with rfl | hc'
    · decide
    · exact hu2low c hc'
  · refine collapseRunsAux_chain_preserve ?_ ?_ u2 false hu2chain
    · intro a hcon
      exact absurd hcon.2 (by decide)
    · intro b hcon
      exact absurd hcon.1 (by decide)
  · intro c hc
    rcases collapseRunsAux_false_head u2 c hc with rfl | hc'
    · decide
    · exact stripWS_head u1 c hc'
  · intro c hc
    rcases collapseRunsAux_getLast u2 false c hc with rfl | hc'
    · decide
    · exact stripWS_getLast u1 c hc'
  · exact collapseRunsAux_chain_self u2 false

/-- The definition `norm_text` always produces a string satisfying the output
invariant. -/
lemma norm_text_out (s : Str) : NormOut (norm_text s) := by
  have h4 : ∀ c ∈ (((s.map nfkcChar).map pyLower).map
      (fun c => if c ∈ DASHES then '-' else c)).map
      (fun c => if c = '_' || c = '/' then ' ' else c), pyLower c = c := by
    intro c hc
    obtain ⟨d, hd, rfl⟩ := List.mem_map.mp hc
    obtain ⟨e, he, rfl⟩ := List.mem_map.mp hd
    obtain ⟨f, _, rfl⟩ := List.mem_map.mp he
    exact char_stage_lower f
  exact normOut_assemble _ h4

/-- A string satisfying the output invariant is a fixed point of
`norm_text`. -/
lemma norm_text_fixed (t : Str) (h : NormOut t) : norm_text t = t := by
  obtain ⟨h1, h2, h3, h4, h5, h6⟩ := h
  have e1 : t.map nfkcChar = t :=
    map_id_of_mem t fun c hc => keep_nfkc (h1 c hc)
  have e2 : t.map pyLower = t := map_id_of_mem t h2
  have e3 : t.map (fun c => if c ∈ DASHES then '-' else c) = t := by
    refine map_id_of_mem t fun c hc => ?_
    have hnd : c ∉ DASHES := by
      intro hd
      have hk := h1 c hc
      rw [dash_not_keep hd] at hk
      cases hk
    simp [hnd]
  have e4 : t.map (fun c => if c = '_' || c = '/' then ' ' else c) = t := by
    refine map_id_of_mem t fun c hc => ?_
    simp [keep_not_us (h1 c hc)]
  have e5 : t.map (fun c => if keepChar c then c else ' ') = t := by
    refine map_id_of_mem t fun c hc => ?_
    simp [h1 c hc]
  have e6 : collapseRuns pyWS ' ' t = t :=
    (collapseRunsAux_id t (fun c hc hp => keep_ws_space (h1 c hc) hp) h3).1
  have e7 : stripWS t = t := stripWS_id t h4 h5
  have e8 : collapseRuns (fun c => c = '-') '-' t = t := by
    refine (collapseRunsAux_id t (fun c _ hp => ?_) h6).1
    simpa using hp
  simp only [norm_text, e1, e2, e3, e4, e5, e6, e7, e8]

/-- Claim C5: the text normalizer is idempotent — normalizing an already
normalized string returns it unchanged. -/
theorem norm_text_idem (s : Str) : norm_text (norm_text s) = norm_text s :=
  norm_text_fixed _ (norm_text_out s)

end Snippet
